import Mathlib

/-!
Verification of the frequency-ranked launcher (bemenu-frequently-used).

The repository contains two near-identical Go variants of the same program:
`src/main.go` (tab-separated counts file, newline-filtering scanner) and
`src/unnamed/part_000` (JSON counts file, unfiltered scanner).  This file is a
shallow embedding of both variants' core logic.  Go strings are modelled as
`List Char` (UTF-8 byte order coincides with code-point order, so Go's
byte-wise `strings.Compare` is the code-point lexicographic comparison
modelled here); Go's `map[string]int` is modelled as an association list
together with the zero-defaulting read `lookupD` that mirrors Go map reads of
missing keys.
-/

namespace Rumenu

/-- Go `string`, modelled as its list of characters. -/
abbrev Str := List Char

/-- Go `map[string]int`, modelled as an association list.  Go's map iteration
order is unspecified; theorems about serialization therefore quantify over
permutations of this list. -/
abbrev Table := List (Str × Int)

/-- Go map read `freq[k]`: the mapped value, or `0` when the key is absent. -/
def lookupD : Table → Str → Int
  | [], _ => 0
  | (k', v) :: t, k => if k' = k then v else lookupD t k

/-- The keys of a table, in representation order (Go: `for k := range freq`). -/
def keysOf (t : Table) : List Str := t.map Prod.fst

/-- Go map write `freq[k] = v` (overwrite if present, append if absent). -/
def mapSet : Table → Str → Int → Table
  | [], k, v => [(k, v)]
  | (k', v') :: t, k, v => if k' = k then (k', v) :: t else (k', v') :: mapSet t k v

/-- Go `freq[choice]++`: increment, materialising an absent key at count 1. -/
def bump : Table → Str → Table
  | [], k => [(k, 1)]
  | (k', v) :: t, k => if k' = k then (k', v + 1) :: t else (k', v) :: bump t k

/-- Go `cmp.Compare` on integers: `-1` if `x < y`, `+1` if `x > y`, else `0`
(rendered as an `Ordering`). -/
def cmpInt (x y : Int) : Ordering :=
  if x < y then .lt else if y < x then .gt else .eq

/-- Go `strings.Compare`: byte-wise lexicographic comparison. -/
def strCompare : Str → Str → Ordering
  | [], [] => .eq
  | [], _ :: _ => .lt
  | _ :: _, [] => .gt
  | a :: as, b :: bs => if a < b then .lt else if b < a then .gt else strCompare as bs

/-- The comparator `compareProgs` from `run` (src/main.go:152-157): primary
key descending count (note the swapped arguments to `cmp.Compare`), secondary
key ascending lexicographic name.  The inline comparator of `writeFreq`
(src/main.go:92-97) and of `sortedMap.MarshalJSON` (part_000:75-80) is
syntactically identical. -/
def compareProgs (freq : Table) (x y : Str) : Ordering :=
  match cmpInt (lookupD freq y) (lookupD freq x) with
  | .eq => strCompare x y
  | o => o

/-- The boolean `≤` induced by `compareProgs`, used to model Go's
`slices.SortFunc` (which sorts ascending w.r.t. the comparator). -/
def progLE (freq : Table) (x y : Str) : Bool := decide (compareProgs freq x y ≠ .gt)

/-- The ranking order as the spec words it: higher count first, ties broken by
ascending lexicographic name. -/
def RankLE (freq : Table) (x y : Str) : Prop :=
  lookupD freq y < lookupD freq x ∨
    (lookupD freq x = lookupD freq y ∧ strCompare x y ≠ .gt)

/-- `slices.SortFunc(progs, compareProgs)` (src/main.go:158).  Go's sort is an
unstable pdqsort, but `compareProgs` is antisymmetric (below), so the sorted
permutation is unique and merge sort is an exact model. -/
def rankProgs (freq : Table) (progs : List Str) : List Str :=
  progs.mergeSort (progLE freq)

section ComparatorLemmas

theorem cmpInt_eq_iff {x y : Int} : cmpInt x y = .eq ↔ x = y := by
  unfold cmpInt
  split_ifs with h1 h2 <;> constructor <;> intro h <;> first | omega | rfl | exact absurd h (by decide)

theorem cmpInt_lt_iff {x y : Int} : cmpInt x y = .lt ↔ x < y := by
  unfold cmpInt
  split_ifs with h1 h2 <;> constructor <;> intro h <;> first | omega | rfl | exact absurd h (by decide)

theorem cmpInt_gt_iff {x y : Int} : cmpInt x y = .gt ↔ y < x := by
  unfold cmpInt
  split_ifs with h1 h2 <;> constructor <;> intro h <;> first | omega | rfl | exact absurd h (by decide)

theorem strCompare_eq_iff : ∀ {x y : Str}, strCompare x y = .eq ↔ x = y
  | [], [] => by simp [strCompare]
  | [], _ :: _ => by simp [strCompare]
  | _ :: _, [] => by simp [strCompare]
  | a :: as, b :: bs => by
    simp only [strCompare]
    rcases lt_trichotomy a b with h | h | h
    · rw [if_pos h]
      simp [List.cons_eq_cons, ne_of_lt h]
    · subst h
      rw [if_neg (lt_irrefl a), if_neg (lt_irrefl a)]
      simp [List.cons_eq_cons, strCompare_eq_iff]
    · rw [if_neg (lt_asymm h), if_pos h]
      simp [List.cons_eq_cons, (ne_of_lt h).symm]

theorem strCompare_swap : ∀ (x y : Str), strCompare y x = (strCompare x y).swap
  | [], [] => rfl
  | [], _ :: _ => rfl
  | _ :: _, [] => rfl
  | a :: as, b :: bs => by
    simp only [strCompare]
    rcases lt_trichotomy a b with h | h | h
    · rw [if_neg (lt_asymm h), if_pos h, if_pos h]; rfl
    · subst h
      rw [if_neg (lt_irrefl a), if_neg (lt_irrefl a), if_neg (lt_irrefl a),
        if_neg (lt_irrefl a)]
      exact strCompare_swap as bs
    · rw [if_pos h, if_neg (lt_asymm h), if_pos h]; rfl

/-- Transitivity of the non-strict order induced by `strCompare`. -/
theorem strCompare_le_trans : ∀ {x y z : Str},
    strCompare x y ≠ .gt → strCompare y z ≠ .gt → strCompare x z ≠ .gt
  | [], _, [] => fun _ _ => by simp [strCompare]
  | [], _, _ :: _ => fun _ _ => by simp [strCompare]
  | _ :: _, [], [] => fun h _ => absurd rfl h
  | _ :: _, [], _ :: _ => fun h _ => absurd rfl h
  | _ :: _, _ :: _, [] => fun _ h => absurd rfl h
  | a :: as, b :: bs, c :: cs => fun h1 h2 => by
    simp only [strCompare] at h1 h2 ⊢
    rcases lt_trichotomy a b with hab | hab | hab
    · rcases lt_trichotomy b c with hbc | hbc | hbc
      · rw [if_pos (lt_trans hab hbc)]; simp
      · subst hbc; rw [if_pos hab]; simp
      · rw [if_neg (lt_asymm hbc), if_pos hbc] at h2
        exact absurd rfl h2
    · subst hab
      rw [if_neg (lt_irrefl a), if_neg (lt_irrefl a)] at h1
      rcases lt_trichotomy a c with hbc | hbc | hbc
      · rw [if_pos hbc]; simp
      · subst hbc
        rw [if_neg (lt_irrefl a), if_neg (lt_irrefl a)] at h2 ⊢
        exact strCompare_le_trans h1 h2
      · rw [if_neg (lt_asymm hbc), if_pos hbc] at h2
        exact absurd rfl h2
    · rw [if_neg (lt_asymm hab), if_pos hab] at h1
      exact absurd rfl h1

theorem compareProgs_eq_iff {freq : Table} {x y : Str} :
    compareProgs freq x y = .eq ↔ x = y := by
  unfold compareProgs
  rcases h : cmpInt (lookupD freq y) (lookupD freq x) with _ | _ | _
  · change Ordering.lt = Ordering.eq ↔ x = y
    constructor
    · intro hc; cases hc
    · intro hxy; subst hxy
      exact absurd (cmpInt_lt_iff.mp h) (lt_irrefl _)
  · change strCompare x y = Ordering.eq ↔ x = y
    exact strCompare_eq_iff
  · change Ordering.gt = Ordering.eq ↔ x = y
    constructor
    · intro hc; cases hc
    · intro hxy; subst hxy
      exact absurd (cmpInt_gt_iff.mp h) (lt_irrefl _)

theorem progLE_iff {freq : Table} {x y : Str} :
    progLE freq x y = true ↔ RankLE freq x y := by
  unfold progLE RankLE
  rw [decide_eq_true_eq]
  unfold compareProgs
  rcases h : cmpInt (lookupD freq y) (lookupD freq x) with _ | _ | _
  · change Ordering.lt ≠ Ordering.gt ↔ _
    constructor
    · intro _; exact Or.inl (cmpInt_lt_iff.mp h)
    · intro _; decide
  · change strCompare x y ≠ Ordering.gt ↔ _
    have heq : lookupD freq x = lookupD freq y := (cmpInt_eq_iff.mp h).symm
    constructor
    · intro hs; exact Or.inr ⟨heq, hs⟩
    · rintro (hlt | ⟨_, hs⟩)
      · omega
      · exact hs
  · change Ordering.gt ≠ Ordering.gt ↔ _
    have hgt : lookupD freq x < lookupD freq y := cmpInt_gt_iff.mp h
    constructor
    · intro hc; exact absurd rfl hc
    · rintro (hlt | ⟨heq, _⟩) <;> omega

theorem rankLE_trans {freq : Table} {x y z : Str} :
    RankLE freq x y → RankLE freq y z → RankLE freq x z := by
  rintro (h1 | ⟨h1, h1s⟩) (h2 | ⟨h2, h2s⟩)
  · exact Or.inl (lt_trans h2 h1)
  · exact Or.inl (by omega)
  · exact Or.inl (by omega)
  · exact Or.inr ⟨by omega, strCompare_le_trans h1s h2s⟩

theorem rankLE_total (freq : Table) (x y : Str) :
    RankLE freq x y ∨ RankLE freq y x := by
  rcases lt_trichotomy (lookupD freq x) (lookupD freq y) with h | h | h
  · exact Or.inr (Or.inl h)
  · rcases hc : strCompare x y with _ | _ | _
    · exact Or.inl (Or.inr ⟨h, by simp [hc]⟩)
    · exact Or.inl (Or.inr ⟨h, by simp [hc]⟩)
    · refine Or.inr (Or.inr ⟨h.symm, ?_⟩)
      rw [strCompare_swap, hc]; decide
  · exact Or.inl (Or.inl h)

theorem rankLE_antisymm {freq : Table} {x y : Str} :
    RankLE freq x y → RankLE freq y x → x = y := by
  rintro (h1 | ⟨h1, h1s⟩) (h2 | ⟨h2, h2s⟩) <;> try omega
  have : strCompare x y = .eq := by
    rw [strCompare_swap] at h2s
    rcases h : strCompare x y with _ | _ | _
    · rw [h] at h2s; simp [Ordering.swap] at h2s
    · rfl
    · exact absurd h h1s
  exact strCompare_eq_iff.mp this

end ComparatorLemmas

section RankerLemmas

theorem rankProgs_perm (freq : Table) (progs : List Str) :
    (rankProgs freq progs).Perm progs :=
  List.mergeSort_perm progs (progLE freq)

theorem rankProgs_sorted (freq : Table) (progs : List Str) :
    (rankProgs freq progs).Sorted (RankLE freq) := by
  have h := @List.sorted_mergeSort _ (progLE freq)
    (fun a b c hab hbc =>
      progLE_iff.mpr (rankLE_trans (progLE_iff.mp hab) (progLE_iff.mp hbc)))
    (fun a b => by
      rcases rankLE_total freq a b with h | h
      · simp [progLE_iff.mpr h]
      · simp [progLE_iff.mpr h])
    progs
  exact List.Pairwise.imp (fun hab => progLE_iff.mp hab) h

theorem rankProgs_eq_of_perm (freq : Table) {C C' : List Str} (h : C'.Perm C) :
    rankProgs freq C' = rankProgs freq C := by
  have hperm : (rankProgs freq C').Perm (rankProgs freq C) :=
    ((rankProgs_perm freq C').trans h).trans (rankProgs_perm freq C).symm
  exact @List.eq_of_perm_of_sorted _ _ ⟨fun _ _ h1 h2 => rankLE_antisymm h1 h2⟩ _ _
    hperm (rankProgs_sorted freq C') (rankProgs_sorted freq C)

end RankerLemmas

/-- **C1.** `Rank(C, T)` (src/main.go:152-158) returns a permutation of the
candidate list `C`, sorted by descending frequency count (keys missing from
the table read as count 0, which is what `lookupD` gives) with ties broken by
ascending lexicographic comparison, and the result is the same for every
permutation of `C`'s input order. -/
theorem C1_rank_total_order (freq : Table) (C C' : List Str) (hperm : C'.Perm C) :
    (rankProgs freq C).Perm C ∧
    (rankProgs freq C).Sorted (RankLE freq) ∧
    rankProgs freq C' = rankProgs freq C :=
  ⟨rankProgs_perm freq C, rankProgs_sorted freq C, rankProgs_eq_of_perm freq hperm⟩

/-- Witness for C1 at a concrete input (Scenario B of the spec:
candidates `vim`, `cat`, `ls` with counts `vim ↦ 5`, `ls ↦ 2`). -/
theorem C1_rank_total_order_witness :
    (rankProgs [("vim".toList, 5), ("ls".toList, 2)]
        ["vim".toList, "cat".toList, "ls".toList]).Perm
      ["vim".toList, "cat".toList, "ls".toList] ∧
    (rankProgs [("vim".toList, 5), ("ls".toList, 2)]
        ["vim".toList, "cat".toList, "ls".toList]).Sorted
      (RankLE [("vim".toList, 5), ("ls".toList, 2)]) ∧
    rankProgs [("vim".toList, 5), ("ls".toList, 2)]
        ["cat".toList, "ls".toList, "vim".toList] =
      rankProgs [("vim".toList, 5), ("ls".toList, 2)]
        ["vim".toList, "cat".toList, "ls".toList] :=
  C1_rank_total_order [("vim".toList, 5), ("ls".toList, 2)]
    ["vim".toList, "cat".toList, "ls".toList]
    ["cat".toList, "ls".toList, "vim".toList] (by decide)

/-! ### Decimal rendering and parsing

`writeFreq` prints counts with `fmt.Fprintf("%s\t%d\n", ...)`; `readFreq`
parses them back with `strconv.Atoi`.  Overflow of Go's 64-bit `int` is not
modelled (counts are increments from zero and stay tiny). -/

/-- The decimal digit character for `d < 10` (ASCII `'0'` is 48). -/
def digitChar (d : Nat) : Char :=
  Char.ofNat (48 + d % 10)

/-- The numeric value of a decimal digit character, if it is one
(`strconv` accepts exactly `'0' <= c && c <= '9'`). -/
def digitVal (c : Char) : Option Nat :=
  if '0' ≤ c ∧ c ≤ '9' then some (c.toNat - 48) else none

/-- Decimal rendering of a natural number (no sign, no leading zeros). -/
def natToDigits (n : Nat) : Str :=
  if _h : n < 10 then [digitChar n]
  else natToDigits (n / 10) ++ [digitChar (n % 10)]
termination_by n
decreasing_by exact Nat.div_lt_self (by omega) (by omega)

/-- `fmt`'s `%d` for a Go `int`: optional minus sign then decimal digits. -/
def intToStr (v : Int) : Str :=
  if v < 0 then '-' :: natToDigits v.natAbs else natToDigits v.natAbs

/-- Digit-accumulating loop of `strconv.Atoi`: fails on any non-digit. -/
def parseDigitsAcc : Str → Nat → Option Nat
  | [], acc => some acc
  | c :: cs, acc =>
    match digitVal c with
    | none => none
    | some d => parseDigitsAcc cs (acc * 10 + d)

/-- `strconv.Atoi`: optional sign, then one or more decimal digits. -/
def atoi (s : Str) : Option Int :=
  match s with
  | [] => none
  | c :: rest =>
    if c = '-' then
      if rest = [] then none else (parseDigitsAcc rest 0).map (fun n : Nat => -(n : Int))
    else if c = '+' then
      if rest = [] then none else (parseDigitsAcc rest 0).map (fun n : Nat => (n : Int))
    else (parseDigitsAcc (c :: rest) 0).map (fun n : Nat => (n : Int))

/-! ### writeFreq serialization (src/main.go:87-124)

`writeFreq` collects the map's keys, sorts them with the same comparator as
the ranker, and writes one `name\tcount\n` line per key through a buffered
writer into a freshly created temporary file, which is then renamed over the
counts file. -/

/-- The sorted key order `writeFreq` emits (src/main.go:88-97): the inline
comparator is the same descending-count/ascending-name order as the ranker,
so this is literally the ranker applied to the key list. -/
def sortedKeys (freq : Table) : List Str :=
  (keysOf freq).mergeSort (progLE freq)

/-- One output line of `writeFreq`: `fmt.Fprintf(w, "%s\t%d\n", k, freq[k])`. -/
def freqLine (freq : Table) (k : Str) : Str :=
  k ++ '\t' :: (intToStr (lookupD freq k) ++ ['\n'])

/-- The full byte content `writeFreq` serializes for a table. -/
def serializeFreq (freq : Table) : Str :=
  ((sortedKeys freq).map (freqLine freq)).flatten

/-! ### readFreq parsing (src/main.go:61-85)

`readFreq` opens the counts file (propagating the open error — notably the
not-found error of a first run), then scans it line by line with
`bufio.Scanner`, splits each line at the *last* tab, and parses the count
with `strconv.Atoi`.  On a malformed line it returns the entries parsed so
far together with a positioned error. -/

/-- A `readFreq` failure: the open error (file missing), or a positioned
syntax error (`"%s:%d invalid syntax"`). -/
inductive ReadErr
  | notFound
  | invalidSyntax (lineNum : Nat)
deriving DecidableEq, Repr

/-- `bufio.ScanLines` drops one trailing carriage return from each line. -/
def stripCR (l : Str) : Str :=
  if l.getLast? = some '\r' then l.dropLast else l

/-- Split at every newline byte (keeping a final empty token, as
`strings.Split` would). -/
def splitNL (cs : Str) : List Str :=
  cs.foldr
    (fun c acc =>
      if c = '\n' then [] :: acc
      else
        match acc with
        | [] => [[c]]
        | l :: ls => (c :: l) :: ls)
    [[]]

/-- Drop the final token when it is empty: `bufio.Scanner` yields no token
for the text after the last newline if that text is empty. -/
def chopLastEmpty : List Str → List Str
  | [] => []
  | [l] => if l = [] then [] else [l]
  | l :: ls => l :: chopLastEmpty ls

/-- The sequence of tokens produced by `bufio.Scanner` with `ScanLines`. -/
def scanLines (cs : Str) : List Str :=
  (chopLastEmpty (splitNL cs)).map stripCR

/-- Index of the last occurrence of a character
(`strings.LastIndex(line, "\t")`). -/
def lastIdxOf (c : Char) : Str → Option Nat
  | [] => none
  | a :: as =>
    match lastIdxOf c as with
    | some i => some (i + 1)
    | none => if a = c then some 0 else none

/-- Parse one counts line (src/main.go:72-82): split at the last tab, `Atoi`
the suffix.  `none` models the two `invalid syntax` paths. -/
def parseLine (line : Str) : Option (Str × Int) :=
  match lastIdxOf '\t' line with
  | none => none
  | some i =>
    match atoi (line.drop (i + 1)) with
    | none => none
    | some v => some (line.take i, v)

/-- The scan loop of `readFreq`: parse each line, storing entries into the
map, stopping with a positioned error (and the partial map) at the first
malformed line. -/
def readLinesFrom : List Str → Nat → Table → Table × Option ReadErr
  | [], _, acc => (acc, none)
  | l :: ls, n, acc =>
    match parseLine l with
    | none => (acc, some (.invalidSyntax n))
    | some (k, v) => readLinesFrom ls (n + 1) (mapSet acc k v)

/-- `readFreq` applied to the bytes of an existing counts file. -/
def readFreqStr (content : Str) : Table × Option ReadErr :=
  readLinesFrom (scanLines content) 1 []

/-- `readFreq` (src/main.go:61-85) as a function of the counts file state:
`os.Open` fails when the file is absent, and `readFreq` returns the `nil`
map *together with that error*. -/
def readFreqFs (file : Option Str) : Table × Option ReadErr :=
  match file with
  | none => ([], some .notFound)
  | some content => readFreqStr content

section DigitLemmas

theorem digitVal_digitChar {d : Nat} (h : d < 10) : digitVal (digitChar d) = some d := by
  interval_cases d <;> decide

theorem natToDigits_ne_nil (n : Nat) : natToDigits n ≠ [] := by
  rw [natToDigits]
  split <;> simp

theorem mem_natToDigits_isDigit : ∀ n : Nat, ∀ c ∈ natToDigits n, (digitVal c).isSome := by
  intro n
  induction n using Nat.strong_induction_on with
  | _ n ih =>
    intro c hc
    rw [natToDigits] at hc
    split at hc
    · rename_i h
      simp only [List.mem_singleton] at hc
      subst hc
      rw [digitVal_digitChar h]; rfl
    · rename_i h
      rcases List.mem_append.mp hc with hc | hc
      · exact ih (n / 10) (Nat.div_lt_self (by omega) (by omega)) c hc
      · simp only [List.mem_singleton] at hc
        subst hc
        rw [digitVal_digitChar (Nat.mod_lt _ (by omega))]; rfl

theorem mem_intToStr {v : Int} {c : Char} (h : c ∈ intToStr v) :
    c = '-' ∨ (digitVal c).isSome := by
  unfold intToStr at h
  split_ifs at h
  · rcases List.mem_cons.mp h with h | h
    · exact Or.inl h
    · exact Or.inr (mem_natToDigits_isDigit _ c h)
  · exact Or.inr (mem_natToDigits_isDigit _ c h)

theorem newline_not_mem_intToStr (v : Int) : '\n' ∉ intToStr v := by
  intro h
  rcases mem_intToStr h with h | h <;> simp [digitVal] at h

theorem tab_not_mem_intToStr (v : Int) : '\t' ∉ intToStr v := by
  intro h
  rcases mem_intToStr h with h | h <;> simp [digitVal] at h

theorem intToStr_ne_nil (v : Int) : intToStr v ≠ [] := by
  unfold intToStr
  split_ifs
  · simp
  · exact natToDigits_ne_nil _

theorem getLast?_intToStr_ne_cr (v : Int) : (intToStr v).getLast? ≠ some '\r' := by
  intro h
  rcases mem_intToStr (List.mem_of_mem_getLast? h) with h | h <;> simp [digitVal] at h

theorem parseDigitsAcc_append (xs ys : Str) :
    ∀ a, parseDigitsAcc (xs ++ ys) a =
      match parseDigitsAcc xs a with
      | none => none
      | some b => parseDigitsAcc ys b := by
  induction xs with
  | nil => intro a; rfl
  | cons c cs ih =>
    intro a
    simp only [List.cons_append, parseDigitsAcc]
    cases digitVal c
    · rfl
    · exact ih _

theorem parseDigitsAcc_natToDigits : ∀ n, ∀ a : Nat,
    parseDigitsAcc (natToDigits n) a = some (a * 10 ^ (natToDigits n).length + n) := by
  intro n
  induction n using Nat.strong_induction_on with
  | _ n ih =>
    intro a
    rw [natToDigits]
    split
    · rename_i h
      simp only [parseDigitsAcc, digitVal_digitChar h, List.length_singleton]
      simp [parseDigitsAcc]
    · rename_i h
      rw [parseDigitsAcc_append]
      rw [ih (n / 10) (Nat.div_lt_self (by omega) (by omega))]
      simp only [parseDigitsAcc, digitVal_digitChar (Nat.mod_lt _ (by omega)),
        List.length_append, List.length_singleton]
      have hmod := Nat.div_add_mod n 10
      rw [pow_succ]
      congr 1
      nlinarith [hmod]

theorem atoi_intToStr (v : Int) : atoi (intToStr v) = some v := by
  unfold intToStr
  split_ifs with hv
  · have h1 : atoi ('-' :: natToDigits v.natAbs) =
        if natToDigits v.natAbs = [] then none
        else (parseDigitsAcc (natToDigits v.natAbs) 0).map (fun n : Nat => -(n : Int)) := rfl
    rw [h1, if_neg (natToDigits_ne_nil _), parseDigitsAcc_natToDigits _ 0]
    simp only [Option.map_some', Nat.zero_mul, Nat.zero_add]
    congr 1
    omega
  · obtain ⟨c, cs, hc⟩ := List.exists_cons_of_ne_nil (natToDigits_ne_nil v.natAbs)
    have hdig : (digitVal c).isSome :=
      mem_natToDigits_isDigit v.natAbs c (by rw [hc]; exact List.mem_cons_self _ _)
    have hcm : c ≠ '-' := by
      intro he; subst he; simp [digitVal] at hdig
    have hcp : c ≠ '+' := by
      intro he; subst he; simp [digitVal] at hdig
    have h1 : atoi (c :: cs) =
        if c = '-' then
          (if cs = [] then none else (parseDigitsAcc cs 0).map (fun n : Nat => -(n : Int)))
        else if c = '+' then
          (if cs = [] then none else (parseDigitsAcc cs 0).map (fun n : Nat => (n : Int)))
        else (parseDigitsAcc (c :: cs) 0).map (fun n : Nat => (n : Int)) := rfl
    rw [hc, h1, if_neg hcm, if_neg hcp, ← hc, parseDigitsAcc_natToDigits _ 0]
    simp only [Option.map_some', Nat.zero_mul, Nat.zero_add]
    congr 1
    omega

end DigitLemmas

section LineLemmas

theorem splitNL_cons (c : Char) (cs : Str) :
    splitNL (c :: cs) =
      if c = '\n' then [] :: splitNL cs
      else
        match splitNL cs with
        | [] => [[c]]
        | l :: ls => (c :: l) :: ls := rfl

theorem splitNL_ne_nil (cs : Str) : splitNL cs ≠ [] := by
  induction cs with
  | nil => simp [splitNL]
  | cons c cs ih =>
    rw [splitNL_cons]
    split
    · simp
    · cases h : splitNL cs <;> simp

theorem splitNL_append {line : Str} (rest : Str) (h : '\n' ∉ line) :
    splitNL (line ++ '\n' :: rest) = line :: splitNL rest := by
  induction line with
  | nil =>
    simp only [List.nil_append]
    rw [splitNL_cons, if_pos rfl]
  | cons a line ih =>
    have ha : a ≠ '\n' := fun he => h (he ▸ List.mem_cons_self a line)
    have h' : '\n' ∉ line := fun hm => h (List.mem_cons_of_mem a hm)
    simp only [List.cons_append]
    rw [splitNL_cons, if_neg ha, ih h']

theorem chopLastEmpty_cons {ls : List Str} (l : Str) (h : ls ≠ []) :
    chopLastEmpty (l :: ls) = l :: chopLastEmpty ls := by
  cases ls with
  | nil => exact absurd rfl h
  | cons l' ls' => rfl

theorem scanLines_nil : scanLines [] = [] := rfl

theorem scanLines_append {line : Str} (rest : Str) (h : '\n' ∉ line) :
    scanLines (line ++ '\n' :: rest) = stripCR line :: scanLines rest := by
  unfold scanLines
  rw [splitNL_append rest h, chopLastEmpty_cons line (splitNL_ne_nil rest),
    List.map_cons]

theorem stripCR_eq_self {l : Str} (h : l.getLast? ≠ some '\r') : stripCR l = l := by
  unfold stripCR
  rw [if_neg h]

theorem drop_append_len_succ : ∀ (k : Str) (c : Char) (rest : Str),
    (k ++ c :: rest).drop (k.length + 1) = rest
  | [], _, rest => by simp
  | a :: k', c, rest => by
    simp only [List.cons_append, List.length_cons, List.drop_succ_cons]
    exact drop_append_len_succ k' c rest

theorem lastIdxOf_eq_none {c : Char} : ∀ {s : Str}, c ∉ s → lastIdxOf c s = none
  | [], _ => rfl
  | a :: as, h => by
    have ha : a ≠ c := fun he => h (he ▸ List.mem_cons_self a as)
    have h' : c ∉ as := fun hm => h (List.mem_cons_of_mem a hm)
    unfold lastIdxOf
    rw [lastIdxOf_eq_none h']
    simp [ha]

theorem lastIdxOf_append (k : Str) (c : Char) {rest : Str} (h : c ∉ rest) :
    lastIdxOf c (k ++ c :: rest) = some k.length := by
  induction k with
  | nil =>
    simp only [List.nil_append]
    unfold lastIdxOf
    rw [lastIdxOf_eq_none h]
    simp
  | cons a k' ih =>
    simp only [List.cons_append, List.length_cons]
    unfold lastIdxOf
    rw [ih]

/-- The last character of a serialized line body comes from the rendered
count, not from the (arbitrary) key. -/
theorem getLast?_body (k : Str) (v : Int) :
    (k ++ '\t' :: intToStr v).getLast? = (intToStr v).getLast? := by
  obtain ⟨d, hd⟩ :=
    Option.isSome_iff_exists.mp (List.getLast?_isSome.mpr (intToStr_ne_nil v))
  rw [List.getLast?_append,
    show ('\t' :: intToStr v) = ['\t'] ++ intToStr v from rfl,
    List.getLast?_append, hd]
  rfl

/-- Parsing one serialized line recovers exactly the key and its count:
the *last* tab splits correctly even when the key itself contains tabs. -/
theorem parseLine_body (k : Str) (v : Int) :
    parseLine (k ++ '\t' :: intToStr v) = some (k, v) := by
  have h1 : lastIdxOf '\t' (k ++ '\t' :: intToStr v) = some k.length :=
    lastIdxOf_append k '\t' (tab_not_mem_intToStr v)
  unfold parseLine
  rw [h1]
  simp only [drop_append_len_succ, atoi_intToStr, List.take_left]

end LineLemmas

section TableLemmas

theorem keysOf_cons (k : Str) (v : Int) (t : Table) :
    keysOf ((k, v) :: t) = k :: keysOf t := rfl

theorem lookupD_cons_eq (k : Str) (v : Int) (t : Table) :
    lookupD ((k, v) :: t) k = v := by
  show (if k = k then v else lookupD t k) = v
  rw [if_pos rfl]

theorem lookupD_cons_ne {k k' : Str} (v : Int) (t : Table) (h : k ≠ k') :
    lookupD ((k, v) :: t) k' = lookupD t k' := by
  show (if k = k' then v else lookupD t k') = lookupD t k'
  rw [if_neg h]

theorem mapSet_fresh : ∀ {acc : Table} (k : Str) (v : Int), k ∉ keysOf acc →
    mapSet acc k v = acc ++ [(k, v)]
  | [], _, _, _ => rfl
  | (k', v') :: t, k, v, h => by
    have hk : k' ≠ k := fun he => h (he ▸ List.mem_cons_self k' (keysOf t))
    have h' : k ∉ keysOf t := fun hm => h (List.mem_cons_of_mem k' hm)
    unfold mapSet
    rw [if_neg hk, mapSet_fresh k v h']
    simp

theorem lookupD_eq_of_mem : ∀ {t : Table} {k : Str} {v : Int},
    (keysOf t).Nodup → (k, v) ∈ t → lookupD t k = v
  | (k', v') :: t, k, v, hnd, hm => by
    rcases List.mem_cons.mp hm with he | ht
    · cases he
      unfold lookupD
      rw [if_pos rfl]
    · have hk : k ∈ keysOf t := List.mem_map_of_mem Prod.fst ht
      have hne : k' ≠ k := by
        intro he; subst he
        exact (List.nodup_cons.mp hnd).1 hk
      unfold lookupD
      rw [if_neg hne]
      exact lookupD_eq_of_mem (List.Nodup.of_cons hnd) ht

theorem lookupD_not_mem : ∀ {t : Table} {k : Str}, k ∉ keysOf t → lookupD t k = 0
  | [], _, _ => rfl
  | (k', v') :: t, k, h => by
    have hk : k' ≠ k := fun he => h (he ▸ List.mem_cons_self k' (keysOf t))
    have h' : k ∉ keysOf t := fun hm => h (List.mem_cons_of_mem k' hm)
    unfold lookupD
    rw [if_neg hk]
    exact lookupD_not_mem h'

/-- Two representations of the same Go map (permutations of each other with
unique keys) have identical reads. -/
theorem lookupD_perm {t1 t2 : Table} (hp : t1.Perm t2)
    (hnd : (keysOf t1).Nodup) (k : Str) : lookupD t1 k = lookupD t2 k := by
  by_cases hk : k ∈ keysOf t1
  · obtain ⟨⟨k', v⟩, hmem, hfst⟩ := List.mem_map.mp hk
    cases hfst
    rw [lookupD_eq_of_mem hnd hmem,
      lookupD_eq_of_mem ((hp.map Prod.fst).nodup_iff.mp hnd) (hp.subset hmem)]
  · rw [lookupD_not_mem hk,
      lookupD_not_mem (fun hm => hk ((hp.map Prod.fst).mem_iff.mpr hm))]

theorem keysOf_map_pair : ∀ {t : Table}, (keysOf t).Nodup →
    (keysOf t).map (fun k => (k, lookupD t k)) = t
  | [], _ => rfl
  | (k, v) :: t, hnd => by
    rw [keysOf_cons, List.map_cons]
    have h1 : lookupD ((k, v) :: t) k = v := lookupD_cons_eq k v t
    have h2 : ∀ k' ∈ keysOf t, lookupD ((k, v) :: t) k' = lookupD t k' := by
      intro k' hk'
      have hne : k ≠ k' := by
        intro he; subst he
        exact (List.nodup_cons.mp hnd).1 hk'
      exact lookupD_cons_ne v t hne
    rw [h1, List.map_congr_left (fun k' hk' => by rw [h2 k' hk']),
      keysOf_map_pair (List.Nodup.of_cons hnd)]

end TableLemmas

section RoundTrip

/-- A well-formed frequency table per the spec's data model: unique keys,
keys free of the record separator (newline), non-negative counts. -/
def ValidTable (t : Table) : Prop :=
  (keysOf t).Nodup ∧ (∀ k ∈ keysOf t, '\n' ∉ k) ∧ ∀ p ∈ t, 0 ≤ p.2

instance (t : Table) : Decidable (ValidTable t) := by
  unfold ValidTable; infer_instance

/-- Scanning the serialized bytes recovers exactly the serialized line
bodies, in order. -/
theorem scanLines_serialized (t : Table) : ∀ ks : List Str, (∀ k ∈ ks, '\n' ∉ k) →
    scanLines ((ks.map (freqLine t)).flatten) =
      ks.map (fun k => k ++ '\t' :: intToStr (lookupD t k))
  | [], _ => scanLines_nil
  | k :: ks, h => by
    have hk : '\n' ∉ k := h k (List.mem_cons_self k ks)
    have hbody : '\n' ∉ k ++ '\t' :: intToStr (lookupD t k) := by
      intro hm
      rcases List.mem_append.mp hm with hm | hm
      · exact hk hm
      · rcases List.mem_cons.mp hm with hm | hm
        · cases hm
        · exact newline_not_mem_intToStr _ hm
    have hshape : freqLine t k ++ ((ks.map (freqLine t)).flatten) =
        (k ++ '\t' :: intToStr (lookupD t k)) ++
          '\n' :: ((ks.map (freqLine t)).flatten) := by
      unfold freqLine
      simp
    rw [List.map_cons, List.flatten_cons, hshape, scanLines_append _ hbody,
      stripCR_eq_self (by rw [getLast?_body]; exact getLast?_intToStr_ne_cr _),
      List.map_cons]
    rw [scanLines_serialized t ks (fun k' hk' => h k' (List.mem_cons_of_mem k hk'))]

/-- The parse loop over freshly keyed serialized lines reproduces the
emitted key/count pairs with no error. -/
theorem readLinesFrom_bodies (t : Table) : ∀ (ks : List Str) (n : Nat) (acc : Table),
    ks.Nodup → (∀ k ∈ ks, k ∉ keysOf acc) →
    readLinesFrom (ks.map (fun k => k ++ '\t' :: intToStr (lookupD t k))) n acc =
      (acc ++ ks.map (fun k => (k, lookupD t k)), none)
  | [], _, acc, _, _ => by simp [readLinesFrom]
  | k :: ks, n, acc, hnd, hfresh => by
    rw [List.map_cons]
    show readLinesFrom ((k ++ '\t' :: intToStr (lookupD t k)) :: _) n acc = _
    unfold readLinesFrom
    rw [parseLine_body]
    show readLinesFrom _ (n + 1) (mapSet acc k (lookupD t k)) = _
    rw [mapSet_fresh k (lookupD t k) (hfresh k (List.mem_cons_self k ks))]
    rw [readLinesFrom_bodies t ks (n + 1) _ (List.Nodup.of_cons hnd) ?_]
    · simp
    · intro k' hk'
      have h1 : k' ≠ k := by
        intro he; subst he
        exact (List.nodup_cons.mp hnd).1 hk'
      intro hm
      unfold keysOf at hm
      rw [List.map_append] at hm
      rcases List.mem_append.mp hm with hm | hm
      · exact hfresh k' (List.mem_cons_of_mem k hk') hm
      · simp at hm
        exact h1 hm

/-- **C3.** For every valid frequency table — empty included — a successful
`writeFreq` (src/main.go:87-124) followed by `readFreq` (src/main.go:61-85)
reproduces exactly the same table: no parse error, the same key/count pairs
(up to the irrelevant Go map representation order), and identical reads for
every key. -/
theorem C3_save_load_round_trip (t : Table) (h : ValidTable t) :
    (readFreqFs (some (serializeFreq t))).2 = none ∧
    (readFreqFs (some (serializeFreq t))).1.Perm t ∧
    ∀ k, lookupD (readFreqFs (some (serializeFreq t))).1 k = lookupD t k := by
  obtain ⟨hnd, hnl, _⟩ := h
  have hkperm : (sortedKeys t).Perm (keysOf t) := List.mergeSort_perm _ _
  have hknd : (sortedKeys t).Nodup := hkperm.nodup_iff.mpr hnd
  have hread : readFreqFs (some (serializeFreq t)) =
      ((sortedKeys t).map (fun k => (k, lookupD t k)), none) := by
    show readFreqStr (serializeFreq t) = _
    unfold readFreqStr serializeFreq
    rw [scanLines_serialized t (sortedKeys t) (fun k hk => hnl k (hkperm.subset hk)),
      readLinesFrom_bodies t (sortedKeys t) 1 [] hknd (by intro k _; simp [keysOf])]
    simp
  have hperm : ((sortedKeys t).map (fun k => (k, lookupD t k))).Perm t := by
    have := hkperm.map (fun k => (k, lookupD t k))
    rw [keysOf_map_pair hnd] at this
    exact this
  refine ⟨by rw [hread], by rw [hread]; exact hperm, ?_⟩
  intro k
  rw [hread]
  exact lookupD_perm hperm
    (by
      have hkeys : keysOf ((sortedKeys t).map (fun k => (k, lookupD t k))) = sortedKeys t := by
        unfold keysOf
        rw [List.map_map,
          show (Prod.fst ∘ fun k => (k, lookupD t k)) = id from rfl, List.map_id]
      rw [hkeys]; exact hknd) k

/-- Witness for C3 at two concrete tables: the empty table and the
Scenario-C table `{vim ↦ 6, ls ↦ 2}`. -/
theorem C3_save_load_round_trip_witness :
    ((readFreqFs (some (serializeFreq []))).2 = none ∧
      (readFreqFs (some (serializeFreq []))).1.Perm [] ∧
      ∀ k, lookupD (readFreqFs (some (serializeFreq []))).1 k = lookupD [] k) ∧
    ((readFreqFs (some (serializeFreq [("vim".toList, 6), ("ls".toList, 2)]))).2 = none ∧
      (readFreqFs (some (serializeFreq [("vim".toList, 6), ("ls".toList, 2)]))).1.Perm
        [("vim".toList, 6), ("ls".toList, 2)] ∧
      ∀ k, lookupD (readFreqFs (some (serializeFreq [("vim".toList, 6), ("ls".toList, 2)]))).1 k =
        lookupD [("vim".toList, 6), ("ls".toList, 2)] k) :=
  ⟨C3_save_load_round_trip [] (by decide),
    C3_save_load_round_trip [("vim".toList, 6), ("ls".toList, 2)] (by decide)⟩

end RoundTrip

section SaveDeterminism

/-- Two representations of the same map order keys identically under the
shared comparator. -/
theorem progLE_congr {t1 t2 : Table} (h : ∀ k, lookupD t1 k = lookupD t2 k) :
    progLE t1 = progLE t2 := by
  funext x y
  unfold progLE compareProgs
  rw [h x, h y]

/-- **C6.** `writeFreq` (src/main.go:87-124) is deterministic: any two
representations of the same table (Go's map iteration order is arbitrary, so
determinism means invariance under permutation of the entries) serialize to
byte-identical output; the keys are emitted sorted by descending count then
ascending name, and that emission order is exactly the ranker's order applied
to the key set.  A second call on the unchanged in-memory table is the same
function application, so saving twice persists byte-identical contents. -/
theorem C6_save_deterministic (t1 t2 : Table) (hp : t1.Perm t2)
    (hnd : (keysOf t1).Nodup) :
    serializeFreq t1 = serializeFreq t2 ∧
    (sortedKeys t1).Sorted (RankLE t1) ∧
    sortedKeys t1 = rankProgs t1 (keysOf t1) := by
  have hl := lookupD_perm hp hnd
  have hsorted1 : (sortedKeys t1).Sorted (RankLE t1) := rankProgs_sorted t1 (keysOf t1)
  have hkeq : sortedKeys t1 = sortedKeys t2 := by
    have hperm : (sortedKeys t1).Perm (sortedKeys t2) :=
      (List.mergeSort_perm _ _).trans
        ((hp.map Prod.fst).trans (List.mergeSort_perm _ _).symm)
    have hs2 : (sortedKeys t2).Sorted (RankLE t1) := by
      have h2 := rankProgs_sorted t2 (keysOf t2)
      exact h2.imp (fun {a b} hab => by
        unfold RankLE at hab ⊢
        rw [hl a, hl b]
        exact hab)
    exact @List.eq_of_perm_of_sorted _ _ ⟨fun _ _ h1 h2 => rankLE_antisymm h1 h2⟩ _ _
      hperm hsorted1 hs2
  refine ⟨?_, hsorted1, rfl⟩
  unfold serializeFreq
  rw [hkeq]
  congr 1
  apply List.map_congr_left
  intro k _
  unfold freqLine
  rw [hl k]

/-- Witness for C6: the same two-entry map in both iteration orders. -/
theorem C6_save_deterministic_witness :
    serializeFreq [("vim".toList, 5), ("ls".toList, 2)] =
      serializeFreq [("ls".toList, 2), ("vim".toList, 5)] ∧
    (sortedKeys [("vim".toList, 5), ("ls".toList, 2)]).Sorted
      (RankLE [("vim".toList, 5), ("ls".toList, 2)]) ∧
    sortedKeys [("vim".toList, 5), ("ls".toList, 2)] =
      rankProgs [("vim".toList, 5), ("ls".toList, 2)]
        (keysOf [("vim".toList, 5), ("ls".toList, 2)]) :=
  C6_save_deterministic [("vim".toList, 5), ("ls".toList, 2)]
    [("ls".toList, 2), ("vim".toList, 5)] (by decide) (by decide)

end SaveDeterminism

/-! ### Filesystem state and the atomic write (src/main.go:87-124)

`writeFreq` creates a temporary file in the data directory, writes the
serialization through a buffered writer (bytes reach the file only at
`Flush`), closes it, and atomically renames it over the counts file.  The
deferred cleanup (src/main.go:102-107) closes and removes the temporary file
whenever `writeFreq` returns an error.  The model below executes that
straight-line code under an injected fault at any step, recording every
intermediate filesystem state. -/

/-- The part of the filesystem the program touches: which directories exist
(as component paths), the counts file content, and the temporary file
content (`none` = no such file). -/
structure FsState where
  dataDirs : List (List Str)
  counts : Option Str
  temp : Option Str
deriving DecidableEq, Repr

/-- The five fallible steps of `writeFreq`, in program order. -/
inductive SaveStage
  | createTemp | writeEntries | flush | closeFile | rename
deriving DecidableEq, Repr

/-- `writeFreq freq` under fault injection `failAt`, starting from filesystem
`fs0`.  Returns (failed?, final state, the trace of intermediate states).
Buffered bytes are not in the temp file until the flush step succeeds; the
deferred cleanup removes the temp file on every error path. -/
def writeFreqExec (freq : Table) (failAt : SaveStage → Bool) (fs0 : FsState) :
    Bool × FsState × List FsState :=
  if failAt .createTemp then (true, fs0, [fs0])
  else
    let fs1 : FsState := { fs0 with temp := some [] }
    if failAt .writeEntries then
      (true, { fs1 with temp := none }, [fs1, { fs1 with temp := none }])
    else if failAt .flush then
      (true, { fs1 with temp := none }, [fs1, { fs1 with temp := none }])
    else
      let fs2 : FsState := { fs1 with temp := some (serializeFreq freq) }
      if failAt .closeFile then
        (true, { fs2 with temp := none }, [fs1, fs2, { fs2 with temp := none }])
      else if failAt .rename then
        (true, { fs2 with temp := none }, [fs1, fs2, { fs2 with temp := none }])
      else
        let fs3 : FsState := { fs2 with counts := some (serializeFreq freq), temp := none }
        (false, fs3, [fs1, fs2, fs3])

/-- **C2.** If `writeFreq` (src/main.go:87-124) fails at any step before the
rename — temp creation, write, flush, or close — it reports the failure, the
persisted counts file is unchanged, and the temporary file is gone; along
*every* execution the counts file only ever holds the complete old content or
the complete new serialization (the switch happens solely at the atomic
rename); and a fault-free run ends with the new serialization installed and
the temporary file removed. -/
theorem C2_atomic_save (freq : Table) (failAt : SaveStage → Bool) (fs0 : FsState)
    (h0 : fs0.temp = none) :
    ((failAt .createTemp || failAt .writeEntries || failAt .flush ||
        failAt .closeFile) = true →
      (writeFreqExec freq failAt fs0).1 = true ∧
      (writeFreqExec freq failAt fs0).2.1.counts = fs0.counts ∧
      (writeFreqExec freq failAt fs0).2.1.temp = none) ∧
    (∀ s ∈ (writeFreqExec freq failAt fs0).2.2,
      s.counts = fs0.counts ∨ s.counts = some (serializeFreq freq)) ∧
    ((∀ st, failAt st = false) →
      (writeFreqExec freq failAt fs0).2.1.counts = some (serializeFreq freq) ∧
      (writeFreqExec freq failAt fs0).2.1.temp = none) := by
  unfold writeFreqExec
  cases h1 : failAt .createTemp <;> cases h2 : failAt .writeEntries <;>
    cases h3 : failAt .flush <;> cases h4 : failAt .closeFile <;>
    cases h5 : failAt .rename <;>
    simp_all <;>
    (intro hall; simp only [hall] at h1 h2 h3 h4 h5; simp_all)

/-- Witness for C2: a close-stage fault over an existing one-byte counts
file, and separately the fault-free run. -/
theorem C2_atomic_save_witness :
    (((fun st => decide (st = SaveStage.closeFile)) SaveStage.createTemp ||
        (fun st => decide (st = SaveStage.closeFile)) SaveStage.writeEntries ||
        (fun st => decide (st = SaveStage.closeFile)) SaveStage.flush ||
        (fun st => decide (st = SaveStage.closeFile)) SaveStage.closeFile) = true →
      (writeFreqExec [] (fun st => decide (st = SaveStage.closeFile))
          ⟨[], some ['x'], none⟩).1 = true ∧
      (writeFreqExec [] (fun st => decide (st = SaveStage.closeFile))
          ⟨[], some ['x'], none⟩).2.1.counts = (⟨[], some ['x'], none⟩ : FsState).counts ∧
      (writeFreqExec [] (fun st => decide (st = SaveStage.closeFile))
          ⟨[], some ['x'], none⟩).2.1.temp = none) ∧
    (∀ s ∈ (writeFreqExec [] (fun st => decide (st = SaveStage.closeFile))
        ⟨[], some ['x'], none⟩).2.2,
      s.counts = (⟨[], some ['x'], none⟩ : FsState).counts ∨
        s.counts = some (serializeFreq [])) ∧
    ((∀ st, (fun st => decide (st = SaveStage.closeFile)) st = false) →
      (writeFreqExec [] (fun st => decide (st = SaveStage.closeFile))
          ⟨[], some ['x'], none⟩).2.1.counts = some (serializeFreq []) ∧
      (writeFreqExec [] (fun st => decide (st = SaveStage.closeFile))
          ⟨[], some ['x'], none⟩).2.1.temp = none) :=
  C2_atomic_save [] (fun st => decide (st = SaveStage.closeFile))
    ⟨[], some ['x'], none⟩ rfl

/-! ### Candidate scanner (src/main.go:35-59 and part_000:34-56)

`rumenuPath` splits `$PATH` on `:` and reads each directory concurrently.
Each read is independent and writes only its own slot of `dirContents`, so
the concurrent fan-out/fan-in is modelled by the per-directory contribution
function applied slot-wise.  `os.ReadDir`'s error is discarded: an unreadable
directory is modelled as `none` and contributes no names. -/

/-- The names one directory contributes in the `src/main.go` variant:
nothing if unreadable, otherwise every entry name not containing a newline
(`strings.Contains(name, "\n")` on single characters is character
membership). -/
def dirFiles : Option (List Str) → List Str
  | none => []
  | some files => files.filter (fun name => decide ('\n' ∉ name))

/-- The names one directory contributes in the `part_000` variant: no
newline filtering. -/
def dirFilesNoFilter : Option (List Str) → List Str
  | none => []
  | some files => files

/-- `rumenuPath` (src/main.go:35-59): concatenate per-directory results in
search-path order and fail with the `"no files"` error iff nothing was
collected. -/
def rumenuPathModel (dirs : List (Option (List Str))) : Except String (List Str) :=
  if (dirs.map dirFiles).flatten = [] then .error "no files"
  else .ok ((dirs.map dirFiles).flatten)

/-- `rumenuPath` (part_000:34-56), which does not filter newlines. -/
def rumenuPathNoFilter (dirs : List (Option (List Str))) : Except String (List Str) :=
  if (dirs.map dirFilesNoFilter).flatten = [] then .error "no files"
  else .ok ((dirs.map dirFilesNoFilter).flatten)

/-- **C7.** The scanner (src/main.go:35-59) fails — and fails only — with the
`"no files"` error, and does so exactly when the concatenation of all
directories' contributed entries is empty; an unreadable directory
contributes zero entries and never causes the error by itself (the scanner
succeeds whenever any other directory contributes an entry). -/
theorem C7_scan_error_iff_empty (dirs : List (Option (List Str))) :
    (rumenuPathModel dirs = .error "no files" ↔ (dirs.map dirFiles).flatten = []) ∧
    (rumenuPathModel dirs = .ok ((dirs.map dirFiles).flatten) ↔
      (dirs.map dirFiles).flatten ≠ []) ∧
    dirFiles none = [] := by
  unfold rumenuPathModel
  split_ifs with h
  · refine ⟨⟨fun _ => h, fun _ => rfl⟩, ⟨fun he => ?_, fun hne => absurd h hne⟩, rfl⟩
    cases he
  · refine ⟨⟨fun he => ?_, fun hh => absurd hh h⟩, ⟨fun _ => h, fun _ => rfl⟩, rfl⟩
    cases he

/-- Witness for C7: one unreadable directory next to one readable directory
holding a single entry. -/
theorem C7_scan_error_iff_empty_witness :
    (rumenuPathModel [none, some [['l', 's']]] = .error "no files" ↔
      ([none, some [['l', 's']]].map dirFiles).flatten = []) ∧
    (rumenuPathModel [none, some [['l', 's']]] =
        .ok (([none, some [['l', 's']]].map dirFiles).flatten) ↔
      ([none, some [['l', 's']]].map dirFiles).flatten ≠ []) ∧
    dirFiles none = [] :=
  C7_scan_error_iff_empty [none, some [['l', 's']]]

/-- **C9** (amended, filtering variant): every name the `src/main.go`
scanner returns is newline-free. -/
theorem C9_scan_filters_newlines (dirs : List (Option (List Str))) (out : List Str)
    (h : rumenuPathModel dirs = .ok out) : ∀ name ∈ out, '\n' ∉ name := by
  unfold rumenuPathModel at h
  split_ifs at h with hempty
  cases h
  intro name hname
  rcases List.mem_flatten.mp hname with ⟨contrib, hc, hnamec⟩
  rcases List.mem_map.mp hc with ⟨d, _, hd⟩
  subst hd
  cases d with
  | none => cases hnamec
  | some files =>
    have hf := List.of_mem_filter hnamec
    exact of_decide_eq_true hf

/-- Witness for C9: a directory holding a clean name and a newline name;
only the clean one survives. -/
theorem C9_scan_filters_newlines_witness : '\n' ∉ (['l', 's'] : Str) :=
  C9_scan_filters_newlines [some [['l', 's'], ['a', '\n', 'b']]]
    ([['l', 's'], ['a', '\n', 'b']].filter (fun name => decide ('\n' ∉ name)))
    rfl ['l', 's'] (by decide)

/-- **C9 counterexample.** The claim is false for the repository's other
scanner variant (part_000:34-56): it applies no newline filter, so a
directory entry named `a\nb` is returned verbatim to the line-oriented
picker. -/
theorem C9_counterexample_nofilter_variant :
    rumenuPathNoFilter [some [['a', '\n', 'b']]] = .ok [['a', '\n', 'b']] ∧
    '\n' ∈ (['a', '\n', 'b'] : Str) := by
  constructor
  · rfl
  · decide

/-! ### Binary search (`slices.BinarySearchFunc`, src/main.go:196)

Go's `BinarySearchFunc(x, target, cmp)` keeps `i, j` with the invariant that
everything left of `i` compares `< 0` against the target and everything from
`j` on compares `>= 0`; it returns `(i, i < n && cmp(x[i], target) == 0)`. -/

/-- The `for i < j` loop of `slices.BinarySearchFunc`. -/
def bsearchLoop (xs : List Str) (t : Str) (c : Str → Str → Ordering)
    (i j : Nat) : Nat :=
  if _h : i < j then
    if c (xs.getD ((i + j) / 2) []) t = .lt then bsearchLoop xs t c ((i + j) / 2 + 1) j
    else bsearchLoop xs t c i ((i + j) / 2)
  else i
termination_by j - i
decreasing_by
  · omega
  · omega

/-- The boolean result of `slices.BinarySearchFunc` (the code discards the
position: `_, ok := slices.BinarySearchFunc(...)`). -/
def binarySearchFound (xs : List Str) (t : Str) (c : Str → Str → Ordering) : Bool :=
  decide (bsearchLoop xs t c 0 xs.length < xs.length) &&
    decide (c (xs.getD (bsearchLoop xs t c 0 xs.length) []) t = .eq)

theorem cmpInt_swap (x y : Int) : cmpInt y x = (cmpInt x y).swap := by
  unfold cmpInt
  rcases lt_trichotomy x y with h | h | h
  · rw [if_neg (by omega), if_pos h, if_pos h]; rfl
  · subst h
    rw [if_neg (lt_irrefl x), if_neg (lt_irrefl x)]
    rfl
  · rw [if_pos h, if_neg (by omega), if_pos h]; rfl

theorem compareProgs_swap (f : Table) (x y : Str) :
    compareProgs f y x = (compareProgs f x y).swap := by
  unfold compareProgs
  rw [cmpInt_swap]
  cases cmpInt (lookupD f y) (lookupD f x) with
  | lt => rfl
  | eq => exact strCompare_swap x y
  | gt => rfl

theorem rankLE_iff_ne_gt {f : Table} {x y : Str} :
    RankLE f x y ↔ compareProgs f x y ≠ .gt := by
  rw [← progLE_iff]
  unfold progLE
  rw [decide_eq_true_eq]

/-- "`a ≤ b` and `b < d` imply `a < d`" for the launcher's comparator. -/
theorem compareProgs_le_lt_trans {f : Table} {a b d : Str}
    (hab : compareProgs f a b ≠ .gt) (hbd : compareProgs f b d = .lt) :
    compareProgs f a d = .lt := by
  rcases had : compareProgs f a d with _ | _ | _
  · rfl
  · have had' : a = d := compareProgs_eq_iff.mp had
    subst had'
    rw [compareProgs_swap] at hbd
    rcases h : compareProgs f a b with _ | _ | _
    · rw [h] at hbd; cases hbd
    · rw [h] at hbd; cases hbd
    · exact absurd h hab
  · have h1 : RankLE f a b := rankLE_iff_ne_gt.mpr hab
    have h2 : RankLE f b d := rankLE_iff_ne_gt.mpr (by rw [hbd]; decide)
    have h3 : RankLE f d a := rankLE_iff_ne_gt.mpr (by rw [compareProgs_swap, had]; decide)
    have hdb : d = b := rankLE_antisymm (rankLE_trans h3 h1) h2
    subst hdb
    have hdd : compareProgs f d d = .eq := compareProgs_eq_iff.mpr rfl
    rw [hdd] at hbd
    cases hbd

theorem bsearchLoop_invariant (xs : List Str) (t : Str) (c : Str → Str → Ordering)
    (hcomp : ∀ a b d, c a b ≠ .gt → c b d = .lt → c a d = .lt)
    (hsort : ∀ p q, p < q → q < xs.length →
      c (xs.getD p []) (xs.getD q []) ≠ .gt) :
    ∀ (fuel i j : Nat), j - i ≤ fuel → i ≤ j → j ≤ xs.length →
    (∀ k, k < i → c (xs.getD k []) t = .lt) →
    (∀ k, j ≤ k → k < xs.length → c (xs.getD k []) t ≠ .lt) →
    i ≤ bsearchLoop xs t c i j ∧ bsearchLoop xs t c i j ≤ j ∧
    (∀ k, k < bsearchLoop xs t c i j → c (xs.getD k []) t = .lt) ∧
    (∀ k, bsearchLoop xs t c i j ≤ k → k < xs.length → c (xs.getD k []) t ≠ .lt) := by
  intro fuel
  induction fuel with
  | zero =>
    intro i j hfuel hij hjn hlo hhi
    have hji : ¬ i < j := by omega
    rw [bsearchLoop, dif_neg hji]
    exact ⟨le_refl i, hij, hlo, fun k hk hkn => hhi k (by omega) hkn⟩
  | succ fuel ih =>
    intro i j hfuel hij hjn hlo hhi
    by_cases hij' : i < j
    · rw [bsearchLoop, dif_pos hij']
      have hmlo : i ≤ (i + j) / 2 := by omega
      have hmhi : (i + j) / 2 < j := by omega
      split_ifs with hc
      · have h1 := ih ((i + j) / 2 + 1) j (by omega) (by omega) hjn
          (by
            intro k hk
            by_cases hkm : k = (i + j) / 2
            · subst hkm; exact hc
            · exact hcomp _ _ _ (hsort k ((i + j) / 2) (by omega) (by omega)) hc)
          hhi
        exact ⟨by omega, h1.2.1, h1.2.2.1, h1.2.2.2⟩
      · have h1 := ih i ((i + j) / 2) (by omega) (by omega) (by omega) hlo
          (by
            intro k hkm hkn hl
            by_cases hke : k = (i + j) / 2
            · subst hke; exact hc hl
            · exact hc (hcomp _ _ _ (hsort ((i + j) / 2) k (by omega) hkn) hl))
        exact ⟨h1.1, by omega, h1.2.2.1, h1.2.2.2⟩
    · rw [bsearchLoop, dif_neg hij']
      exact ⟨le_refl i, hij, hlo, fun k hk hkn => hhi k (by omega) hkn⟩

/-- Correctness of the membership guard: on a list sorted by the ranking
comparator, `slices.BinarySearchFunc` reports a hit exactly for list
members.  (The comparator equates only identical strings, so a hit pins the
exact name.) -/
theorem binarySearchFound_iff_mem (freq : Table) (xs : List Str) (t : Str)
    (hsorted : xs.Sorted (RankLE freq)) :
    binarySearchFound xs t (compareProgs freq) = true ↔ t ∈ xs := by
  have hsort' : ∀ p q, p < q → q < xs.length →
      compareProgs freq (xs.getD p []) (xs.getD q []) ≠ .gt := by
    intro p q hpq hq
    have hrel := List.pairwise_iff_get.mp hsorted ⟨p, by omega⟩ ⟨q, hq⟩ hpq
    rw [List.getD_eq_getElem _ _ (by omega : p < xs.length),
      List.getD_eq_getElem _ _ hq]
    exact rankLE_iff_ne_gt.mp hrel
  have hinv := bsearchLoop_invariant xs t (compareProgs freq)
    (fun _ _ _ hab hbd => compareProgs_le_lt_trans hab hbd) hsort'
    xs.length 0 xs.length (by omega) (by omega) (le_refl _)
    (fun k hk => absurd hk (Nat.not_lt_zero k))
    (fun k h1 h2 => absurd h2 (by omega))
  unfold binarySearchFound
  constructor
  · intro hb
    rw [Bool.and_eq_true, decide_eq_true_eq, decide_eq_true_eq] at hb
    obtain ⟨hrn, heq⟩ := hb
    have hrt : xs.getD (bsearchLoop xs t (compareProgs freq) 0 xs.length) [] = t :=
      compareProgs_eq_iff.mp heq
    rw [← hrt, List.getD_eq_getElem _ _ hrn]
    exact List.getElem_mem hrn
  · intro hmem
    obtain ⟨p, hp, hpe⟩ := List.mem_iff_getElem.mp hmem
    have hpd : xs.getD p [] = t := by rw [List.getD_eq_getElem _ _ hp, hpe]
    have hpeq : compareProgs freq (xs.getD p []) t = .eq := by
      rw [hpd]; exact compareProgs_eq_iff.mpr rfl
    have hpr : bsearchLoop xs t (compareProgs freq) 0 xs.length ≤ p := by
      by_contra hlt
      have hl := hinv.2.2.1 p (by omega)
      rw [hl] at hpeq
      cases hpeq
    have hrn : bsearchLoop xs t (compareProgs freq) 0 xs.length < xs.length := by omega
    have hne_lt : compareProgs freq
        (xs.getD (bsearchLoop xs t (compareProgs freq) 0 xs.length) []) t ≠ .lt :=
      hinv.2.2.2 _ (le_refl _) hrn
    have hne_gt : compareProgs freq
        (xs.getD (bsearchLoop xs t (compareProgs freq) 0 xs.length) []) t ≠ .gt := by
      by_cases hrp : bsearchLoop xs t (compareProgs freq) 0 xs.length = p
      · rw [hrp, hpeq]; decide
      · have hs := hsort' (bsearchLoop xs t (compareProgs freq) 0 xs.length) p
          (by omega) hp
        rw [hpd] at hs
        exact hs
    rcases hfin : compareProgs freq
        (xs.getD (bsearchLoop xs t (compareProgs freq) 0 xs.length) []) t with _ | _ | _
    · exact absurd hfin hne_lt
    · rw [Bool.and_eq_true]
      exact ⟨decide_eq_true hrn, by decide⟩
    · exact absurd hfin hne_gt

/-! ### The orchestrator (src/main.go:126-211) and exit codes (212-223)

`run` joins the concurrent `readFreq`/`rumenuPath` pair, sorts, drives the
picker, and on a non-empty selection joins the concurrent shell-execution and
persistence-update pair.  The two post-pick operations touch disjoint state
(the shell never reads the table or the filesystem model; the persistence
update never touches the command), so the fan-out/fan-in is modelled as a
product of the two outcomes.  External collaborators (directory reads, picker,
shell, `MkdirAll`, and I/O faults inside `writeFreq`) are injected inputs. -/

/-- Outcome of `bemenu.Output()`: its stdout, or an `*exec.ExitError` with an
exit code, or another failure (e.g. executable not found). -/
inductive PickerOutcome
  | ok (out : Str) | exitFail (code : Nat) | otherFail

/-- Outcome of `sh.Run()`: success, an `*exec.ExitError` with the shell's
exit code, or another failure. -/
inductive ShellOutcome
  | ok | exitFail (code : Nat) | otherFail
deriving DecidableEq, Repr

/-- The errors `run` can return.  `pickerExit`/`progExit` are the errors that
wrap an `*exec.ExitError` (`fmt.Errorf("bemenu: %w", err)` at src/main.go:164
and `fmt.Errorf("%s: %w", choice, err)` at src/main.go:184 — both use `%w`,
so `errors.As` can unwrap either). -/
inductive RunErr
  | scan
  | pickerExit (code : Nat)
  | pickerOther
  | progExit (choice : Str) (code : Nat)
  | progOther (choice : Str)
  | mkdirFail
  | saveFail
deriving DecidableEq, Repr

/-- `os.MkdirAll`: afterwards every ancestor prefix of the path exists. -/
def mkdirAll (existing : List (List Str)) (path : List Str) : List (List Str) :=
  existing ++ (List.range path.length).map (fun i => path.take (i + 1))

/-- Joint outcome of the two post-pick concurrent operations
(src/main.go:171-204): what was executed, the two error slots, the resulting
filesystem, and the table handed to `writeFreq` (if it was called). -/
structure PostResult where
  executed : Option Str
  progErr : Option RunErr
  writeErr : Option RunErr
  fs : FsState
  savedReq : Option Table

/-- The post-pick phase of `run` for a non-empty `choice`: the shell
goroutine runs `choice` regardless; the persistence goroutine makes the data
directory, then updates and saves the table only if the binary-search guard
finds `choice` in the sorted candidate list (src/main.go:188-204). -/
def runPostPick (freq : Table) (sorted : List Str) (choice : Str)
    (shell : ShellOutcome) (mkdirOk : Bool) (saveFault : SaveStage → Bool)
    (dataDir : List Str) (fs0 : FsState) : PostResult :=
  let progErr : Option RunErr :=
    match shell with
    | .ok => none
    | .exitFail code => some (.progExit choice code)
    | .otherFail => some (.progOther choice)
  if mkdirOk then
    let fs1 : FsState := { fs0 with dataDirs := mkdirAll fs0.dataDirs dataDir }
    if binarySearchFound sorted choice (compareProgs freq) then
      { executed := some choice, progErr := progErr,
        writeErr := if (writeFreqExec (bump freq choice) saveFault fs1).1 then
          some .saveFail else none,
        fs := (writeFreqExec (bump freq choice) saveFault fs1).2.1,
        savedReq := some (bump freq choice) }
    else
      { executed := some choice, progErr := progErr, writeErr := none,
        fs := fs1, savedReq := none }
  else
    { executed := some choice, progErr := progErr, writeErr := some .mkdirFail,
      fs := fs0, savedReq := none }

/-- The injected environment of one `run`: `$PATH` directory reads, the
starting filesystem, picker and shell outcomes, `MkdirAll` success, and
`writeFreq` fault injection, plus the data-directory path. -/
structure RunEnv where
  pathDirs : List (Option (List Str))
  fs : FsState
  picker : PickerOutcome
  shell : ShellOutcome
  mkdirOk : Bool
  saveFault : SaveStage → Bool
  dataDir : List Str

/-- Observable outcome of one `run`: its returned error, the text executed,
whether a load warning was printed, the final filesystem, and the table
handed to `writeFreq` (if any). -/
structure RunResult where
  err : Option RunErr
  executed : Option Str
  warned : Bool
  fs : FsState
  savedReq : Option Table

/-- `bytes.TrimSuffix(choiceBytes, "\n")`: drop one trailing newline. -/
def trimNewline (s : Str) : Str :=
  if s.getLast? = some '\n' then s.dropLast else s

/-- `run` (src/main.go:126-211).  A load failure only warns; a scan failure
aborts; an empty selection is a silent no-op; otherwise the post-pick phase
runs and the shell error takes priority over the persistence error
(src/main.go:206-210). -/
def runModel (env : RunEnv) : RunResult :=
  match rumenuPathModel env.pathDirs with
  | .error _ =>
    ⟨some .scan, none, (readFreqFs env.fs.counts).2.isSome, env.fs, none⟩
  | .ok progs =>
    match env.picker with
    | .exitFail code =>
      ⟨some (.pickerExit code), none, (readFreqFs env.fs.counts).2.isSome, env.fs, none⟩
    | .otherFail =>
      ⟨some .pickerOther, none, (readFreqFs env.fs.counts).2.isSome, env.fs, none⟩
    | .ok out =>
      if trimNewline out = [] then
        ⟨none, none, (readFreqFs env.fs.counts).2.isSome, env.fs, none⟩
      else
        ⟨match (runPostPick (readFreqFs env.fs.counts).1
              (rankProgs (readFreqFs env.fs.counts).1 progs) (trimNewline out)
              env.shell env.mkdirOk env.saveFault env.dataDir env.fs).progErr with
          | some e => some e
          | none =>
            (runPostPick (readFreqFs env.fs.counts).1
              (rankProgs (readFreqFs env.fs.counts).1 progs) (trimNewline out)
              env.shell env.mkdirOk env.saveFault env.dataDir env.fs).writeErr,
          (runPostPick (readFreqFs env.fs.counts).1
            (rankProgs (readFreqFs env.fs.counts).1 progs) (trimNewline out)
            env.shell env.mkdirOk env.saveFault env.dataDir env.fs).executed,
          (readFreqFs env.fs.counts).2.isSome,
          (runPostPick (readFreqFs env.fs.counts).1
            (rankProgs (readFreqFs env.fs.counts).1 progs) (trimNewline out)
            env.shell env.mkdirOk env.saveFault env.dataDir env.fs).fs,
          (runPostPick (readFreqFs env.fs.counts).1
            (rankProgs (readFreqFs env.fs.counts).1 progs) (trimNewline out)
            env.shell env.mkdirOk env.saveFault env.dataDir env.fs).savedReq⟩

/-- `errors.As(err, &bemenuErr)` (src/main.go:215-216): the exit code of the
`*exec.ExitError` wrapped anywhere in the chain — present for both the
picker error and the shell-command error, both wrapped with `%w`. -/
def isExitError : RunErr → Option Nat
  | .pickerExit code => some code
  | .progExit _ code => some code
  | _ => none

/-- `main` (src/main.go:213-223): (exit code, whether `ERROR:` was printed).
A wrapped `*exec.ExitError` exits with that process's code and prints
nothing; any other error prints `ERROR: ...` and exits 255; no error falls
through with exit code 0. -/
def mainModel (err : Option RunErr) : Nat × Bool :=
  match err with
  | none => (0, false)
  | some e =>
    match isExitError e with
    | some code => (code, false)
    | none => (255, true)

section UpdateGuard

theorem lookupD_bump_self : ∀ (t : Table) (k : Str),
    lookupD (bump t k) k = lookupD t k + 1
  | [], k => by
    show lookupD [(k, 1)] k = lookupD [] k + 1
    rw [lookupD_cons_eq]
    rfl
  | (k', v) :: t, k => by
    unfold bump
    split_ifs with he
    · subst he
      rw [lookupD_cons_eq, lookupD_cons_eq]
    · rw [lookupD_cons_ne v _ he, lookupD_cons_ne v _ he]
      exact lookupD_bump_self t k

theorem lookupD_bump_other : ∀ (t : Table) (k k' : Str), k' ≠ k →
    lookupD (bump t k) k' = lookupD t k'
  | [], k, k', hne => by
    show lookupD [(k, 1)] k' = lookupD [] k'
    rw [lookupD_cons_ne 1 [] (fun he => hne he.symm)]
  | (k0, v) :: t, k, k', hne => by
    unfold bump
    split_ifs with he
    · subst he
      by_cases h0 : k0 = k'
      · subst h0
        exact absurd rfl hne
      · rw [lookupD_cons_ne (v + 1) _ h0, lookupD_cons_ne v _ h0]
    · by_cases h0 : k0 = k'
      · subst h0
        rw [lookupD_cons_eq, lookupD_cons_eq]
      · rw [lookupD_cons_ne v _ h0, lookupD_cons_ne v _ h0]
        exact lookupD_bump_other t k k' hne

/-- **C4.** In the post-pick persistence step (src/main.go:188-204), given
that `MkdirAll` succeeds and the selection is non-empty: the table handed to
`writeFreq` is the in-memory table with the selection's count incremented by
exactly 1, and `writeFreq` is invoked if and only if the binary-search guard
(same comparator, same sorted list) finds the selection — which happens if
and only if the selection is among the scanned candidates.  A selection not
in the candidate list leaves the counts file and the table untouched, while
the command is still executed with the selection text (as it is for any
non-empty selection). -/
theorem C4_increment_iff_found (freq : Table) (progs : List Str) (choice : Str)
    (shell : ShellOutcome) (saveFault : SaveStage → Bool) (dataDir : List Str)
    (fs0 : FsState) (_hch : choice ≠ []) :
    ((runPostPick freq (rankProgs freq progs) choice shell true saveFault
        dataDir fs0).savedReq = some (bump freq choice) ↔
      binarySearchFound (rankProgs freq progs) choice (compareProgs freq) = true) ∧
    (binarySearchFound (rankProgs freq progs) choice (compareProgs freq) = true ↔
      choice ∈ progs) ∧
    ((runPostPick freq (rankProgs freq progs) choice shell true saveFault
        dataDir fs0).savedReq = none ↔ choice ∉ progs) ∧
    (choice ∉ progs →
      (runPostPick freq (rankProgs freq progs) choice shell true saveFault
          dataDir fs0).fs.counts = fs0.counts ∧
      (runPostPick freq (rankProgs freq progs) choice shell true saveFault
          dataDir fs0).fs.temp = fs0.temp) ∧
    (runPostPick freq (rankProgs freq progs) choice shell true saveFault
        dataDir fs0).executed = some choice ∧
    lookupD (bump freq choice) choice = lookupD freq choice + 1 ∧
    (∀ k, k ≠ choice → lookupD (bump freq choice) k = lookupD freq k) := by
  have hmem : binarySearchFound (rankProgs freq progs) choice (compareProgs freq) = true ↔
      choice ∈ progs := by
    rw [binarySearchFound_iff_mem freq _ choice (rankProgs_sorted freq progs)]
    exact (rankProgs_perm freq progs).mem_iff
  by_cases hin : choice ∈ progs
  · have hbs : binarySearchFound (rankProgs freq progs) choice (compareProgs freq) = true :=
      hmem.mpr hin
    refine ⟨?_, hmem, ?_, fun hno => absurd hin hno, ?_,
      lookupD_bump_self freq choice, fun k hk => lookupD_bump_other freq choice k hk⟩ <;>
      simp [runPostPick, hbs, hin]
  · have hbs : binarySearchFound (rankProgs freq progs) choice (compareProgs freq) = false :=
      Bool.eq_false_iff.mpr (fun h => hin (hmem.mp h))
    refine ⟨?_, hmem, ?_, fun _ => ?_, ?_,
      lookupD_bump_self freq choice, fun k hk => lookupD_bump_other freq choice k hk⟩ <;>
      simp [runPostPick, hbs, hin]

/-- Witness for C4 at Scenario-E-like inputs: candidate list `["ls"]`,
selection `"ls"` (present). -/
theorem C4_increment_iff_found_witness :
    ((runPostPick [] (rankProgs [] [['l', 's']]) ['l', 's'] ShellOutcome.ok
        true (fun _ => false) [] ⟨[], none, none⟩).savedReq =
        some (bump [] ['l', 's']) ↔
      binarySearchFound (rankProgs [] [['l', 's']]) ['l', 's'] (compareProgs []) = true) ∧
    (binarySearchFound (rankProgs [] [['l', 's']]) ['l', 's'] (compareProgs []) = true ↔
      ['l', 's'] ∈ [['l', 's']]) ∧
    ((runPostPick [] (rankProgs [] [['l', 's']]) ['l', 's'] ShellOutcome.ok
        true (fun _ => false) [] ⟨[], none, none⟩).savedReq = none ↔
      ['l', 's'] ∉ [['l', 's']]) ∧
    (['l', 's'] ∉ [['l', 's']] →
      (runPostPick [] (rankProgs [] [['l', 's']]) ['l', 's'] ShellOutcome.ok
          true (fun _ => false) [] ⟨[], none, none⟩).fs.counts =
        (⟨[], none, none⟩ : FsState).counts ∧
      (runPostPick [] (rankProgs [] [['l', 's']]) ['l', 's'] ShellOutcome.ok
          true (fun _ => false) [] ⟨[], none, none⟩).fs.temp =
        (⟨[], none, none⟩ : FsState).temp) ∧
    (runPostPick [] (rankProgs [] [['l', 's']]) ['l', 's'] ShellOutcome.ok
        true (fun _ => false) [] ⟨[], none, none⟩).executed = some ['l', 's'] ∧
    lookupD (bump [] ['l', 's']) ['l', 's'] = lookupD [] ['l', 's'] + 1 ∧
    (∀ k, k ≠ ['l', 's'] → lookupD (bump [] ['l', 's']) k = lookupD [] k) :=
  C4_increment_iff_found [] [['l', 's']] ['l', 's'] ShellOutcome.ok
    (fun _ => false) [] ⟨[], none, none⟩ (by decide)

end UpdateGuard

section FrameAndExit

/-- Every ancestor prefix of the path exists after `mkdirAll`. -/
theorem mkdirAll_mem (existing : List (List Str)) (path : List Str) :
    ∀ i, i < path.length → path.take (i + 1) ∈ mkdirAll existing path := by
  intro i hi
  unfold mkdirAll
  refine List.mem_append.mpr (Or.inr ?_)
  exact List.mem_map.mpr ⟨i, List.mem_range.mpr hi, rfl⟩

/-- **C10.** On a non-empty selection with the persistence goroutine's
`MkdirAll` succeeding, `run` creates the data directory — all its missing
parents included — *before* the binary-search membership check
(src/main.go:190-198): even when the selection is not a scanned candidate,
the data directory exists afterwards while the counts file, the temp file,
and the table are untouched, and the command is still executed. -/
theorem C10_mkdir_before_guard (freq : Table) (progs : List Str) (choice : Str)
    (shell : ShellOutcome) (saveFault : SaveStage → Bool) (dataDir : List Str)
    (fs0 : FsState) (_hch : choice ≠ []) (hnot : choice ∉ progs) :
    (∀ i, i < dataDir.length → dataDir.take (i + 1) ∈
      (runPostPick freq (rankProgs freq progs) choice shell true saveFault
        dataDir fs0).fs.dataDirs) ∧
    (runPostPick freq (rankProgs freq progs) choice shell true saveFault
      dataDir fs0).fs.counts = fs0.counts ∧
    (runPostPick freq (rankProgs freq progs) choice shell true saveFault
      dataDir fs0).fs.temp = fs0.temp ∧
    (runPostPick freq (rankProgs freq progs) choice shell true saveFault
      dataDir fs0).savedReq = none ∧
    (runPostPick freq (rankProgs freq progs) choice shell true saveFault
      dataDir fs0).executed = some choice := by
  have hmem : binarySearchFound (rankProgs freq progs) choice (compareProgs freq) = true ↔
      choice ∈ progs := by
    rw [binarySearchFound_iff_mem freq _ choice (rankProgs_sorted freq progs)]
    exact (rankProgs_perm freq progs).mem_iff
  have hbs : binarySearchFound (rankProgs freq progs) choice (compareProgs freq) = false :=
    Bool.eq_false_iff.mpr (fun h => hnot (hmem.mp h))
  refine ⟨?_, ?_, ?_, ?_, ?_⟩ <;> simp [runPostPick, hbs]
  exact mkdirAll_mem fs0.dataDirs dataDir

/-- Witness for C10: selection `"cat"` against candidate list `["ls"]`, data
directory `~/.local/share/rumenu` as three components. -/
theorem C10_mkdir_before_guard_witness :
    (∀ i, i < ([['a'], ['b'], ['c']] : List Str).length →
      ([['a'], ['b'], ['c']] : List Str).take (i + 1) ∈
        (runPostPick [] (rankProgs [] [['l', 's']]) ['c', 'a', 't'] ShellOutcome.ok
          true (fun _ => false) [['a'], ['b'], ['c']] ⟨[], none, none⟩).fs.dataDirs) ∧
    (runPostPick [] (rankProgs [] [['l', 's']]) ['c', 'a', 't'] ShellOutcome.ok
      true (fun _ => false) [['a'], ['b'], ['c']] ⟨[], none, none⟩).fs.counts =
      (⟨[], none, none⟩ : FsState).counts ∧
    (runPostPick [] (rankProgs [] [['l', 's']]) ['c', 'a', 't'] ShellOutcome.ok
      true (fun _ => false) [['a'], ['b'], ['c']] ⟨[], none, none⟩).fs.temp =
      (⟨[], none, none⟩ : FsState).temp ∧
    (runPostPick [] (rankProgs [] [['l', 's']]) ['c', 'a', 't'] ShellOutcome.ok
      true (fun _ => false) [['a'], ['b'], ['c']] ⟨[], none, none⟩).savedReq = none ∧
    (runPostPick [] (rankProgs [] [['l', 's']]) ['c', 'a', 't'] ShellOutcome.ok
      true (fun _ => false) [['a'], ['b'], ['c']] ⟨[], none, none⟩).executed =
      some ['c', 'a', 't'] :=
  C10_mkdir_before_guard [] [['l', 's']] ['c', 'a', 't'] ShellOutcome.ok
    (fun _ => false) [['a'], ['b'], ['c']] ⟨[], none, none⟩ (by decide) (by decide)

/-- The shell goroutine's error slot depends only on the shell outcome
(src/main.go:171-186): the persistence branches never change it. -/
theorem runPostPick_progErr (freq : Table) (sorted : List Str) (choice : Str)
    (shell : ShellOutcome) (mkdirOk : Bool) (saveFault : SaveStage → Bool)
    (dataDir : List Str) (fs0 : FsState) :
    (runPostPick freq sorted choice shell mkdirOk saveFault dataDir fs0).progErr =
      match shell with
      | ShellOutcome.ok => none
      | ShellOutcome.exitFail code => some (RunErr.progExit choice code)
      | ShellOutcome.otherFail => some (RunErr.progOther choice) := by
  unfold runPostPick
  split_ifs <;> rfl

/-- **C8** (amended).  `main` (src/main.go:213-223) exits 0 with no output on
success and on the silent empty-selection no-op; when `run`'s error wraps an
`*exec.ExitError` — which happens both when the *picker* fails with an exit
code and when the executed command's *shell* exits non-zero, since both are
wrapped with `%w` — the process exits with that process's own exit code and
prints nothing; every other error is printed with an `ERROR:` prefix and
exits 255. -/
theorem C8_exit_codes (e : RunErr) (he : isExitError e = none) :
    mainModel none = (0, false) ∧
    (∀ code, mainModel (some (RunErr.pickerExit code)) = (code, false)) ∧
    (∀ choice code, mainModel (some (RunErr.progExit choice code)) = (code, false)) ∧
    mainModel (some e) = (255, true) ∧
    (∀ env : RunEnv, ∀ progs, rumenuPathModel env.pathDirs = .ok progs →
      env.picker = PickerOutcome.ok ['\n'] →
      (runModel env).err = none ∧ mainModel (runModel env).err = (0, false)) := by
  refine ⟨rfl, fun code => rfl, fun choice code => rfl, ?_, ?_⟩
  · show (match isExitError e with
      | some code => (code, false)
      | none => ((255 : Nat), true)) = ((255 : Nat), true)
    rw [he]
  · intro env progs hok hpick
    have herr : (runModel env).err = none := by
      unfold runModel
      simp only [hok, hpick]
      rw [if_pos (show trimNewline ['\n'] = [] from rfl)]
    exact ⟨herr, by rw [herr]; rfl⟩

/-- Witness for C8 at the internal scan error and a concrete no-op run. -/
theorem C8_exit_codes_witness :
    mainModel none = (0, false) ∧
    (∀ code, mainModel (some (RunErr.pickerExit code)) = (code, false)) ∧
    (∀ choice code, mainModel (some (RunErr.progExit choice code)) = (code, false)) ∧
    mainModel (some RunErr.scan) = (255, true) ∧
    (∀ env : RunEnv, ∀ progs, rumenuPathModel env.pathDirs = .ok progs →
      env.picker = PickerOutcome.ok ['\n'] →
      (runModel env).err = none ∧ mainModel (runModel env).err = (0, false)) :=
  C8_exit_codes RunErr.scan rfl

/-- **C8 counterexample.** When the executed command's shell exits with code
3, `run` returns the wrapping error, `errors.As` unwraps the shell's
`*exec.ExitError`, and the process exits with code 3 *without* printing —
not with 255 and an `ERROR:` line as the claim requires for every
non-picker error. -/
theorem C8_counterexample_shell_exit :
    (runPostPick [] (rankProgs [] [['l', 's']]) ['l', 's'] (ShellOutcome.exitFail 3)
        true (fun _ => false) [] ⟨[], none, none⟩).progErr =
      some (RunErr.progExit ['l', 's'] 3) ∧
    mainModel (some (RunErr.progExit ['l', 's'] 3)) = (3, false) ∧
    ((3 : Nat), false) ≠ ((255 : Nat), true) := by
  refine ⟨?_, rfl, by decide⟩
  rw [runPostPick_progErr]

end FrameAndExit

section LoadMissing

/-- **C5 counterexample.** `readFreq` (src/main.go:61-66) propagates the
`os.Open` error of a missing counts file: it does *not* return "no error". -/
theorem C5_counterexample_missing_file_errors :
    (readFreqFs none).2 = some ReadErr.notFound ∧ (readFreqFs none).2 ≠ none := by
  exact ⟨rfl, by decide⟩

/-- **C5** (amended).  When the counts file does not exist, `readFreq`
returns the empty (nil) table *together with the open error*; `run` prints a
warning for it and continues with the empty table, so a first run still
reaches the picker and, on a no-op selection, still exits cleanly — the
missing file is non-fatal but it does produce a warning. -/
theorem C5_missing_file_warns_and_continues (env : RunEnv) (progs : List Str)
    (hc : env.fs.counts = none) (hok : rumenuPathModel env.pathDirs = .ok progs)
    (hpick : env.picker = PickerOutcome.ok ['\n']) :
    readFreqFs none = ([], some ReadErr.notFound) ∧
    (runModel env).warned = true ∧
    (runModel env).err = none ∧
    mainModel (runModel env).err = (0, false) := by
  have hrun : runModel env =
      ⟨none, none, (readFreqFs env.fs.counts).2.isSome, env.fs, none⟩ := by
    unfold runModel
    simp only [hok, hpick]
    rw [if_pos (show trimNewline ['\n'] = [] from rfl)]
  refine ⟨rfl, ?_, ?_, ?_⟩ <;> rw [hrun]
  · rw [hc]; rfl
  · rfl

/-- Witness for C5's amended theorem at a concrete first-run environment. -/
theorem C5_missing_file_warns_and_continues_witness :
    readFreqFs none = ([], some ReadErr.notFound) ∧
    (runModel ⟨[some [['l', 's']]], ⟨[], none, none⟩, PickerOutcome.ok ['\n'],
      ShellOutcome.ok, true, fun _ => false, []⟩).warned = true ∧
    (runModel ⟨[some [['l', 's']]], ⟨[], none, none⟩, PickerOutcome.ok ['\n'],
      ShellOutcome.ok, true, fun _ => false, []⟩).err = none ∧
    mainModel (runModel ⟨[some [['l', 's']]], ⟨[], none, none⟩, PickerOutcome.ok ['\n'],
      ShellOutcome.ok, true, fun _ => false, []⟩).err = (0, false) :=
  C5_missing_file_warns_and_continues
    ⟨[some [['l', 's']]], ⟨[], none, none⟩, PickerOutcome.ok ['\n'],
      ShellOutcome.ok, true, fun _ => false, []⟩
    [['l', 's']] rfl rfl rfl

end LoadMissing

end Rumenu
